import Mathlib

/-!
Shallow embedding of the core array operations of the MLD MRI processing
repository (`src/mld_tbss/utils.py` and
`src/mld_tbss/nifti_visualisation_helper.py`), together with proofs of the
specified properties.

Arrays are modelled as a shape (list of dimension sizes) plus a flat,
row-major (C-order) list of integer voxel values; numpy integer values are
modelled as unbounded integers, with an explicit wrap-to-int32 function where
the source converts dtypes. Voxel physical spacings are modelled as rationals
(the exact Euclidean distance transform compares squared distances, which are
rational whenever the spacings are).
-/

/-- Decidable equality for `Except` results, used to evaluate the models
on concrete inputs. -/
instance {ε α : Type} [DecidableEq ε] [DecidableEq α] :
    DecidableEq (Except ε α) := fun x y =>
  match x, y with
  | .ok a, .ok b =>
    if h : a = b then isTrue (by rw [h])
    else isFalse (by intro hh; cases hh; exact h rfl)
  | .error a, .error b =>
    if h : a = b then isTrue (by rw [h])
    else isFalse (by intro hh; cases hh; exact h rfl)
  | .ok _, .error _ => isFalse (by intro hh; cases hh)
  | .error _, .ok _ => isFalse (by intro hh; cases hh)

/-- An N-dimensional integer array: a shape together with the row-major
flattened list of values. Mirrors a numpy integer ndarray. -/
structure NDArray where
  shape : List Nat
  data : List Int
deriving DecidableEq, Repr

/-- Value of an array at flat index `i` (0 outside the stored data,
matching the convention that well-formed arrays have `shape.prod` values). -/
def NDArray.val (a : NDArray) (i : Nat) : Int :=
  a.data.getD i 0

/-- Convert a flat row-major index into a multi-index for `shape`.
Mirrors numpy C-order unravelling: the first axis has the largest stride. -/
def unflatten : List Nat → Nat → List Nat
  | [], _ => []
  | _ :: rest, i => (i / rest.prod) :: unflatten rest (i % rest.prod)

/-- Convert a multi-index back into a flat row-major index. -/
def flatIndex : List Nat → List Nat → Nat
  | _ :: rest, c :: cs => c * rest.prod + flatIndex rest cs
  | _, _ => 0

theorem length_unflatten (shape : List Nat) (i : Nat) :
    (unflatten shape i).length = shape.length := by
  induction shape generalizing i with
  | nil => rfl
  | cons s rest ih => simp [unflatten, ih]

theorem flatIndex_unflatten (shape : List Nat) (i : Nat) (hi : i < shape.prod) :
    flatIndex shape (unflatten shape i) = i := by
  induction shape generalizing i with
  | nil => simp [List.prod_nil] at hi; simp [unflatten, flatIndex, hi]
  | cons s rest ih =>
    have hrest : 0 < rest.prod := by
      rcases Nat.eq_zero_or_pos rest.prod with h0 | h0
      · simp [List.prod_cons, h0] at hi
      · exact h0
    have hmod : i % rest.prod < rest.prod := Nat.mod_lt _ hrest
    simp only [unflatten, flatIndex]
    rw [ih _ hmod, Nat.mul_comm]
    exact Nat.div_add_mod i rest.prod

theorem unflatten_injOn (shape : List Nat) {i j : Nat}
    (hi : i < shape.prod) (hj : j < shape.prod)
    (h : unflatten shape i = unflatten shape j) : i = j := by
  have := flatIndex_unflatten shape i hi
  rw [h, flatIndex_unflatten shape j hj] at this
  exact this.symm

/-- Weighted squared Euclidean distance between two multi-indices, with one
physical spacing factor per axis. This is the metric of the exact Euclidean
distance transform (`scipy.ndimage.distance_transform_edt` with `sampling`);
comparing squared distances is equivalent to comparing distances. -/
def sqdist : List ℚ → List Nat → List Nat → ℚ
  | sp :: sps, a :: as_, b :: bs => (sp * ((a : ℚ) - (b : ℚ)))^2 + sqdist sps as_ bs
  | _, _, _ => 0

theorem sqdist_nonneg (sp : List ℚ) (p q : List Nat) : 0 ≤ sqdist sp p q := by
  induction sp generalizing p q with
  | nil => simp [sqdist]
  | cons s sps ih =>
    cases p with
    | nil => simp [sqdist]
    | cons a as_ =>
      cases q with
      | nil => simp [sqdist]
      | cons b bs =>
        have h1 : (0:ℚ) ≤ (s * ((a : ℚ) - (b : ℚ)))^2 := sq_nonneg _
        have h2 := ih as_ bs
        simpa [sqdist] using add_nonneg h1 h2

theorem sqdist_self (sp : List ℚ) (p : List Nat) : sqdist sp p p = 0 := by
  induction sp generalizing p with
  | nil => simp [sqdist]
  | cons s sps ih =>
    cases p with
    | nil => simp [sqdist]
    | cons a as_ => simp [sqdist, ih]

theorem sqdist_pos (sp : List ℚ) (p q : List Nat)
    (hsp : ∀ x ∈ sp, 0 < x)
    (hlp : sp.length = p.length) (hlq : sp.length = q.length)
    (hne : p ≠ q) : 0 < sqdist sp p q := by
  induction sp generalizing p q with
  | nil =>
    exfalso
    cases p with
    | nil =>
      cases q with
      | nil => exact hne rfl
      | cons b bs => simp at hlq
    | cons a as_ => simp at hlp
  | cons s sps ih =>
    cases p with
    | nil => simp at hlp
    | cons a as_ =>
      cases q with
      | nil => simp at hlq
      | cons b bs =>
        by_cases hab : a = b
        · subst hab
          have hne2 : as_ ≠ bs := fun h => hne (by rw [h])
          have hrec := ih as_ bs (fun x hx => hsp x (List.mem_cons_of_mem _ hx))
            (by simpa using hlp) (by simpa using hlq) hne2
          have h1 : (0:ℚ) ≤ (s * ((a : ℚ) - (a : ℚ)))^2 := sq_nonneg _
          simp only [sqdist]
          linarith
        · have hs : 0 < s := hsp s (List.mem_cons_self _ _)
          have hd : ((a : ℚ) - (b : ℚ)) ≠ 0 := by
            intro h
            apply hab
            have : (a : ℚ) = (b : ℚ) := by linarith
            exact_mod_cast this
          have h1 : 0 < (s * ((a : ℚ) - (b : ℚ)))^2 :=
            pow_two_pos_of_ne_zero (mul_ne_zero (ne_of_gt hs) hd)
          have h2 := sqdist_nonneg sps as_ bs
          simp only [sqdist]
          linarith

/-- First index attaining the minimum of `key` over the list (earlier
elements win ties). Models the deterministic choice the feature transform
makes among equidistant seeds; all properties proved below are
tie-break-independent. -/
def argminBy (key : Nat → ℚ) : List Nat → Option Nat
  | [] => none
  | x :: xs =>
    match argminBy key xs with
    | none => some x
    | some y => if key y < key x then some y else some x

theorem argminBy_mem (key : Nat → ℚ) (l : List Nat) (j : Nat)
    (h : argminBy key l = some j) : j ∈ l := by
  induction l with
  | nil => simp [argminBy] at h
  | cons x xs ih =>
    simp only [argminBy] at h
    cases hrec : argminBy key xs with
    | none =>
      rw [hrec] at h
      simp at h
      simp [h]
    | some y =>
      rw [hrec] at h
      by_cases hlt : key y < key x
      · simp [hlt] at h
        exact List.mem_cons_of_mem _ (ih (h ▸ hrec))
      · simp [hlt] at h
        simp [h]

theorem argminBy_eq_of_unique_min (key : Nat → ℚ) (l : List Nat) (i : Nat)
    (hmem : i ∈ l) (hmin : ∀ j ∈ l, j ≠ i → key i < key j) :
    argminBy key l = some i := by
  induction l with
  | nil => simp at hmem
  | cons x xs ih =>
    by_cases hxi : x = i
    · subst hxi
      simp only [argminBy]
      cases hrec : argminBy key xs with
      | none => rfl
      | some y =>
        have hy : y ∈ xs := argminBy_mem key xs y hrec
        by_cases hyx : y = x
        · simp [hyx]
        · have := hmin y (List.mem_cons_of_mem _ hy) hyx
          simp [not_lt.mpr (le_of_lt this)]
    · have hmem2 : i ∈ xs := by
        cases hmem with
        | head => exact absurd rfl hxi
        | tail _ h => exact h
      have hrec := ih hmem2 (fun j hj hne => hmin j (List.mem_cons_of_mem _ hj) hne)
      simp only [argminBy, hrec]
      have hxlt := hmin x (List.mem_cons_self _ _) hxi
      simp [hxlt]

/-- Error kinds that `voronoi_subparcellate` can raise: the three
`ValueError`s of the source (shape mismatch, fewer than 2 dimensions, empty
mask) and the sequence-length error the distance transform raises for a
`sampling` argument whose length differs from the array rank. -/
inductive VorError
  | shapeMismatch
  | ndimTooSmall
  | emptyMask
  | spacingLength
deriving DecidableEq, Repr

/-- Flat indices of the non-zero voxels of `seed_labels`; these are the
zero entries of `edt_input = (seed_labels == 0)`, i.e. the sources of the
Euclidean distance transform. -/
def seedIndices (seeds : NDArray) : List Nat :=
  (List.range seeds.shape.prod).filter (fun j => decide (seeds.val j ≠ 0))

/-- Effective per-axis spacing: `None` means unit spacing on every axis. -/
def effSpacing (ndim : Nat) : Option (List ℚ) → List ℚ
  | none => List.replicate ndim 1
  | some sp => sp

/-- Core computation of `voronoi_subparcellate` after validation: each
voxel of the mask gets the label of the seed voxel nearest in the weighted
Euclidean metric (the feature transform of the EDT, gathered through
`seed_labels`), and voxels outside the mask stay 0 (`np.zeros_like`
followed by masked assignment). When the seed set is empty, every gather
lands in the all-zero seed volume, so the value is 0. -/
def vorCompute (to_subdivide seed_labels : NDArray) (sp : List ℚ) : NDArray :=
  ⟨seed_labels.shape, (List.range seed_labels.shape.prod).map (fun i =>
    if to_subdivide.val i = 0 then 0
    else
      match argminBy
          (fun j => sqdist sp (unflatten seed_labels.shape i)
            (unflatten seed_labels.shape j))
          (seedIndices seed_labels) with
      | none => 0
      | some j => seed_labels.val j)⟩

/-- Model of `voronoi_subparcellate` (utils.py): validation in source
order (shape mismatch, rank below 2, all-zero mask), then the distance
transform, which rejects an explicit spacing of the wrong length, then the
masked nearest-seed assignment. Output dtype conversion is not modelled:
voxel values are unbounded integers. -/
def voronoi_subparcellate (to_subdivide seed_labels : NDArray)
    (spacing : Option (List ℚ)) : Except VorError NDArray :=
  if to_subdivide.shape ≠ seed_labels.shape then .error .shapeMismatch
  else if to_subdivide.shape.length < 2 then .error .ndimTooSmall
  else if (List.range to_subdivide.shape.prod).all
      (fun i => decide (to_subdivide.val i = 0)) then .error .emptyMask
  else if (effSpacing to_subdivide.shape.length spacing).length
      ≠ to_subdivide.shape.length then .error .spacingLength
  else .ok (vorCompute to_subdivide seed_labels
    (effSpacing to_subdivide.shape.length spacing))

theorem voronoi_ok_inv {tos seeds : NDArray} {spacing : Option (List ℚ)}
    {out : NDArray} (h : voronoi_subparcellate tos seeds spacing = .ok out) :
    tos.shape = seeds.shape ∧ 2 ≤ tos.shape.length ∧
      (effSpacing tos.shape.length spacing).length = tos.shape.length ∧
      out = vorCompute tos seeds (effSpacing tos.shape.length spacing) := by
  unfold voronoi_subparcellate at h
  split_ifs at h with h1 h2 h3 h4
  refine ⟨not_not.mp h1, not_lt.mp h2, not_not.mp h4, ?_⟩
  exact (Except.ok.injEq _ _ ▸ h).symm

/-- Value of an array built from a map over all flat indices. -/
theorem val_mk_map (shape : List Nat) (f : Nat → Int) (i : Nat) :
    (NDArray.mk shape ((List.range shape.prod).map f)).val i =
      if i < shape.prod then f i else 0 := by
  by_cases hi : i < shape.prod
  · have hlen : i < ((List.range shape.prod).map f).length := by
      simpa using hi
    simp [NDArray.val, List.getD_eq_getElem _ _ hlen, hi]
  · have hnone : (List.range shape.prod)[i]? = none :=
      List.getElem?_eq_none (by simpa using not_lt.mp hi)
    simp [NDArray.val, List.getD, hnone, hi]

/-- Error kinds of `combine_hemispheres`: shape mismatch, or overlap with
the exact number of voxels non-zero in both inputs (the count named in the
raised error message). The integer-dtype check of the source is vacuous in
this model because voxel values are integers by construction. -/
inductive CombineError
  | shapeMismatch
  | overlap (nVoxels : Nat)
deriving DecidableEq, Repr

/-- Number of voxels non-zero in both arrays: the sum of
`lmask & rmask` in the source. -/
def overlapCount (left right : NDArray) : Nat :=
  (List.range left.shape.prod).countP
    (fun i => decide (left.val i ≠ 0 ∧ right.val i ≠ 0))

/-- Model of `combine_hemispheres` (utils.py): reject mismatched shapes,
raise on any overlap of the non-zero supports naming the overlap count,
otherwise take the left value where left is non-zero, else the right value
(`np.where(lmask, left, right)`). -/
def combine_hemispheres (left right : NDArray) : Except CombineError NDArray :=
  if left.shape ≠ right.shape then .error .shapeMismatch
  else if overlapCount left right ≠ 0 then
    .error (.overlap (overlapCount left right))
  else .ok ⟨left.shape, (List.range left.shape.prod).map (fun i =>
    if left.val i ≠ 0 then left.val i else right.val i)⟩

theorem countP_range_eq_card_filter (n : Nat) (p : Nat → Prop) [DecidablePred p] :
    (List.range n).countP (fun i => decide (p i)) =
      ((Finset.range n).filter p).card := by
  induction n with
  | zero => simp
  | succ n ih =>
    rw [List.range_succ, List.countP_append, Finset.range_succ, Finset.filter_insert]
    by_cases h : p n
    · rw [if_pos h, Finset.card_insert_of_not_mem (by simp)]
      simp [List.countP_cons, h, ih]
    · rw [if_neg h]
      simp [List.countP_cons, h, ih]

/-- Wrap an unbounded integer into the int32 value range, modelling numpy
`astype(np.int32)`; the numerals are 2 to the 31st and 2 to the 32nd. -/
def toInt32 (v : Int) : Int := (v + 2147483648) % 4294967296 - 2147483648

theorem toInt32_eq_self {v : Int} (h0 : 0 ≤ v) (h1 : v < 2147483648) :
    toInt32 v = v := by
  unfold toInt32
  omega


/-- A Bool-valued strict total order: transitive, connected and
asymmetric. The comparisons used below (integer less-than and code-point
lexicographic order on strings) satisfy it; Bool-valued comparisons keep
every model evaluable by kernel reduction on concrete inputs. -/
def StrictTotal {α : Type} (lt : α → α → Bool) : Prop :=
  (∀ a b c, lt a b = true → lt b c = true → lt a c = true) ∧
  (∀ a b : α, a ≠ b → lt a b = true ∨ lt b a = true) ∧
  (∀ a b : α, lt a b = true → lt b a = false)

theorem StrictTotal.irrefl {α : Type} {lt : α → α → Bool}
    (hso : StrictTotal lt) (a : α) : lt a a = false := by
  cases h : lt a a with
  | false => rfl
  | true => exact absurd h (by simpa using hso.2.2 a a h)

theorem StrictTotal.ne_of_lt {α : Type} {lt : α → α → Bool}
    (hso : StrictTotal lt) {a b : α} (h : lt a b = true) : a ≠ b := by
  intro he
  subst he
  rw [hso.irrefl a] at h
  cases h

/-- Insert a value into a strictly ascending (under `lt`) duplicate-free
list, keeping it strictly ascending and duplicate-free. -/
def insertSorted {α : Type} [DecidableEq α] (lt : α → α → Bool) (x : α) :
    List α → List α
  | [] => [x]
  | y :: ys =>
    if lt x y then x :: y :: ys
    else if x = y then y :: ys
    else y :: insertSorted lt x ys

/-- Strictly ascending list of the distinct values of a list. Models
`np.unique` and Python `sorted(set(...))` for the given comparison. -/
def sortedUniq {α : Type} [DecidableEq α] (lt : α → α → Bool) (l : List α) :
    List α :=
  l.foldr (insertSorted lt) []

theorem mem_insertSorted {α : Type} [DecidableEq α] (lt : α → α → Bool)
    (x a : α) (l : List α) :
    a ∈ insertSorted lt x l ↔ a = x ∨ a ∈ l := by
  induction l with
  | nil => simp [insertSorted]
  | cons y ys ih =>
    by_cases h1 : lt x y = true
    · rw [show insertSorted lt x (y :: ys) = x :: y :: ys from by
        simp [insertSorted, h1]]
      simp only [List.mem_cons]
    · by_cases h2 : x = y
      · rw [show insertSorted lt x (y :: ys) = y :: ys from by
          simp only [insertSorted, if_neg h1, if_pos h2]]
        constructor
        · exact fun h => Or.inr h
        · rintro (rfl | h)
          · rw [h2]
            exact List.mem_cons_self _ _
          · exact h
      · rw [show insertSorted lt x (y :: ys) = y :: insertSorted lt x ys from by
          simp [insertSorted, h1, h2]]
        simp only [List.mem_cons, ih]
        tauto

theorem pairwise_insertSorted {α : Type} [DecidableEq α] {lt : α → α → Bool}
    (hso : StrictTotal lt) (x : α) (l : List α)
    (h : l.Pairwise (fun a b => lt a b = true)) :
    (insertSorted lt x l).Pairwise (fun a b => lt a b = true) := by
  induction l with
  | nil => simp [insertSorted]
  | cons y ys ih =>
    rcases List.pairwise_cons.mp h with ⟨hy, hys⟩
    by_cases h1 : lt x y = true
    · rw [show insertSorted lt x (y :: ys) = x :: y :: ys from by
        simp [insertSorted, h1]]
      refine List.pairwise_cons.mpr ⟨?_, h⟩
      intro b hb
      rcases List.mem_cons.mp hb with rfl | hb2
      · exact h1
      · exact hso.1 x y b h1 (hy b hb2)
    · by_cases h2 : x = y
      · rw [show insertSorted lt x (y :: ys) = y :: ys from by
          simp only [insertSorted, if_neg h1, if_pos h2]]
        exact h
      · have hyx : lt y x = true := by
          rcases hso.2.1 x y h2 with hc | hc
          · exact absurd hc h1
          · exact hc
        rw [show insertSorted lt x (y :: ys) = y :: insertSorted lt x ys from by
          simp [insertSorted, h1, h2]]
        refine List.pairwise_cons.mpr ⟨?_, ih hys⟩
        intro b hb
        rcases (mem_insertSorted lt x b ys).mp hb with rfl | hb2
        · exact hyx
        · exact hy b hb2

theorem mem_sortedUniq {α : Type} [DecidableEq α] (lt : α → α → Bool)
    (l : List α) (a : α) :
    a ∈ sortedUniq lt l ↔ a ∈ l := by
  induction l with
  | nil => simp [sortedUniq]
  | cons x xs ih =>
    have hstep : sortedUniq lt (x :: xs) = insertSorted lt x (sortedUniq lt xs) :=
      rfl
    rw [hstep, mem_insertSorted, ih, List.mem_cons]

theorem pairwise_sortedUniq {α : Type} [DecidableEq α] {lt : α → α → Bool}
    (hso : StrictTotal lt) (l : List α) :
    (sortedUniq lt l).Pairwise (fun a b => lt a b = true) := by
  induction l with
  | nil => simp [sortedUniq]
  | cons x xs ih => exact pairwise_insertSorted hso x (sortedUniq lt xs) ih

theorem nodup_sortedUniq {α : Type} [DecidableEq α] {lt : α → α → Bool}
    (hso : StrictTotal lt) (l : List α) : (sortedUniq lt l).Nodup :=
  (pairwise_sortedUniq hso l).imp (fun h => hso.ne_of_lt h)

theorem length_insertSorted_le {α : Type} [DecidableEq α] (lt : α → α → Bool)
    (x : α) (l : List α) :
    (insertSorted lt x l).length ≤ l.length + 1 := by
  induction l with
  | nil => simp [insertSorted]
  | cons y ys ih =>
    by_cases h1 : lt x y = true
    · simp [insertSorted, h1]
    · by_cases h2 : x = y
      · simp only [insertSorted, if_neg h1, if_pos h2, List.length_cons]
        omega
      · rw [show insertSorted lt x (y :: ys) = y :: insertSorted lt x ys from by
          simp [insertSorted, h1, h2]]
        simp only [List.length_cons]
        omega

theorem length_sortedUniq_le {α : Type} [DecidableEq α] (lt : α → α → Bool)
    (l : List α) :
    (sortedUniq lt l).length ≤ l.length := by
  induction l with
  | nil => simp [sortedUniq]
  | cons x xs ih =>
    have hstep : sortedUniq lt (x :: xs) = insertSorted lt x (sortedUniq lt xs) :=
      rfl
    rw [hstep]
    calc (insertSorted lt x (sortedUniq lt xs)).length
        ≤ (sortedUniq lt xs).length + 1 := length_insertSorted_le lt x _
      _ ≤ xs.length + 1 := by omega
      _ = (x :: xs).length := rfl

theorem sortedUniq_head_min {α : Type} [DecidableEq α] {lt : α → α → Bool}
    (hso : StrictTotal lt) (l : List α) (h0 : α) (t : List α)
    (h : sortedUniq lt l = h0 :: t) :
    h0 ∈ l ∧ ∀ y ∈ l, y ≠ h0 → lt h0 y = true := by
  have hmem : h0 ∈ l := (mem_sortedUniq lt l h0).mp (h ▸ List.mem_cons_self _ _)
  refine ⟨hmem, fun y hy hne => ?_⟩
  have hy2 : y ∈ h0 :: t := h ▸ (mem_sortedUniq lt l y).mpr hy
  rcases List.mem_cons.mp hy2 with rfl | hy3
  · exact absurd rfl hne
  · have hp := pairwise_sortedUniq hso l
    rw [h] at hp
    exact (List.pairwise_cons.mp hp).1 y hy3

/-- Zero-based position of a value in a list (length if absent). Models a
Python `enumerate`-built dictionary lookup into a list of distinct values. -/
def idxIn {α : Type} [DecidableEq α] (v : α) : List α → Nat
  | [] => 0
  | y :: ys => if v = y then 0 else idxIn v ys + 1

theorem idxIn_lt_length {α : Type} [DecidableEq α] (v : α) (l : List α)
    (hv : v ∈ l) : idxIn v l < l.length := by
  induction l with
  | nil => cases hv
  | cons y ys ih =>
    by_cases hvy : v = y
    · simp [idxIn, hvy]
    · have hv2 : v ∈ ys := by
        rcases List.mem_cons.mp hv with rfl | h2
        · exact absurd rfl hvy
        · exact h2
      simp only [idxIn, if_neg hvy, List.length_cons]
      exact Nat.succ_lt_succ (ih hv2)

theorem idxIn_eq_countP {α : Type} [DecidableEq α] {lt : α → α → Bool}
    (hso : StrictTotal lt) (l : List α) (v : α)
    (hp : l.Pairwise (fun a b => lt a b = true)) (hv : v ∈ l) :
    idxIn v l = l.countP (fun w => lt w v) := by
  induction l with
  | nil => cases hv
  | cons y ys ih =>
    rcases List.pairwise_cons.mp hp with ⟨hy, hys⟩
    by_cases hvy : v = y
    · subst hvy
      have h2 : ys.countP (fun w => lt w v) = 0 := by
        rw [List.countP_eq_zero]
        intro a ha
        simpa using hso.2.2 v a (hy a ha)
      simp [idxIn, List.countP_cons, h2, hso.irrefl v]
    · have hv2 : v ∈ ys := by
        rcases List.mem_cons.mp hv with rfl | h2
        · exact absurd rfl hvy
        · exact h2
      have hyv : lt y v = true := hy v hv2
      simp only [idxIn, if_neg hvy, List.countP_cons]
      rw [ih hys hv2]
      simp [hyv]

theorem countP_eq_card_filter_toFinset {α : Type} [DecidableEq α]
    (l : List α) (p : α → Bool) (h : l.Nodup) :
    l.countP p = (l.toFinset.filter (p ·)).card := by
  rw [List.countP_eq_length_filter, ← List.toFinset_filter,
    List.toFinset_card_of_nodup (h.filter p)]

theorem toFinset_sortedUniq {α : Type} [DecidableEq α] (lt : α → α → Bool)
    (l : List α) :
    (sortedUniq lt l).toFinset = l.toFinset := by
  ext a
  simp [mem_sortedUniq]

/-- Integer less-than as a Bool comparison. -/
def intLt (a b : Int) : Bool := decide (a < b)

theorem intLt_strictTotal : StrictTotal intLt := by
  refine ⟨?_, ?_, ?_⟩
  · intro a b c h1 h2
    simp only [intLt, decide_eq_true_eq] at h1 h2 ⊢
    omega
  · intro a b h
    simp only [intLt, decide_eq_true_eq]
    omega
  · intro a b h
    simp only [intLt, decide_eq_true_eq, decide_eq_false_iff_not] at h ⊢
    omega

/-- Code-point lexicographic comparison of character lists. -/
def ltChars : List Char → List Char → Bool
  | [], [] => false
  | [], _ :: _ => true
  | _ :: _, [] => false
  | a :: as_, b :: bs =>
    if a < b then true else if b < a then false else ltChars as_ bs

/-- Code-point lexicographic comparison of strings: the order Python uses
when sorting category names with `sorted(...)`. -/
def strLt (a b : String) : Bool := ltChars a.data b.data

theorem ltChars_trans :
    ∀ a b c, ltChars a b = true → ltChars b c = true → ltChars a c = true := by
  intro a
  induction a with
  | nil =>
    intro b c h1 h2
    cases b with
    | nil => simp [ltChars] at h1
    | cons y ys =>
      cases c with
      | nil => simp [ltChars] at h2
      | cons z zs => simp [ltChars]
  | cons x xs ih =>
    intro b c h1 h2
    cases b with
    | nil => simp [ltChars] at h1
    | cons y ys =>
      cases c with
      | nil => simp [ltChars] at h2
      | cons z zs =>
        simp only [ltChars] at h1 h2 ⊢
        by_cases hxy : x < y
        · by_cases hyz : y < z
          · simp [lt_trans hxy hyz]
          · by_cases hzy : z < y
            · simp [hyz, hzy] at h2
            · have hyzeq : y = z := le_antisymm (not_lt.mp hzy) (not_lt.mp hyz)
              subst hyzeq
              simp [hxy]
        · by_cases hyx : y < x
          · simp [hxy, hyx] at h1
          · have hxyeq : x = y := le_antisymm (not_lt.mp hyx) (not_lt.mp hxy)
            subst hxyeq
            simp only [hxy, if_neg hxy, lt_irrefl, if_neg (lt_irrefl x)] at h1
            by_cases hyz : x < z
            · simp [hyz]
            · by_cases hzy : z < x
              · simp [hyz, hzy] at h2
              · have hyzeq : x = z := le_antisymm (not_lt.mp hzy) (not_lt.mp hyz)
                subst hyzeq
                simp only [lt_irrefl, if_neg (lt_irrefl x)] at h2 ⊢
                exact ih ys zs h1 h2

theorem ltChars_connex :
    ∀ a b, a ≠ b → ltChars a b = true ∨ ltChars b a = true := by
  intro a
  induction a with
  | nil =>
    intro b hb
    cases b with
    | nil => exact absurd rfl hb
    | cons y ys => simp [ltChars]
  | cons x xs ih =>
    intro b hb
    cases b with
    | nil => simp [ltChars]
    | cons y ys =>
      by_cases hxy : x < y
      · simp [ltChars, hxy]
      · by_cases hyx : y < x
        · simp [ltChars, hyx]
        · have hxyeq : x = y := le_antisymm (not_lt.mp hyx) (not_lt.mp hxy)
          subst hxyeq
          have hne : xs ≠ ys := by
            intro h
            exact hb (by rw [h])
          rcases ih ys hne with hc | hc <;>
            simp [ltChars, lt_irrefl, hc]

theorem ltChars_asymm :
    ∀ a b, ltChars a b = true → ltChars b a = false := by
  intro a
  induction a with
  | nil =>
    intro b h
    cases b with
    | nil => simp [ltChars] at h
    | cons y ys => simp [ltChars]
  | cons x xs ih =>
    intro b h
    cases b with
    | nil => simp [ltChars] at h
    | cons y ys =>
      simp only [ltChars] at h ⊢
      by_cases hxy : x < y
      · have hyx : ¬ y < x := not_lt.mpr (le_of_lt hxy)
        simp [hxy, hyx]
      · by_cases hyx : y < x
        · simp [hxy, hyx] at h
        · have hxyeq : x = y := le_antisymm (not_lt.mp hyx) (not_lt.mp hxy)
          subst hxyeq
          simp only [lt_irrefl, if_neg (lt_irrefl x)] at h ⊢
          exact ih ys h

theorem string_data_inj {a b : String} (h : a.data = b.data) : a = b := by
  cases a
  cases b
  exact congrArg String.mk h

theorem strLt_strictTotal : StrictTotal strLt := by
  refine ⟨?_, ?_, ?_⟩
  · intro a b c h1 h2
    exact ltChars_trans a.data b.data c.data h1 h2
  · intro a b h
    exact ltChars_connex a.data b.data (fun he => h (string_data_inj he))
  · intro a b h
    exact ltChars_asymm a.data b.data h

/-- Lexicographic comparison agrees with the standard lexicographic order
on the underlying character lists. -/
theorem strLt_iff_lex (a b : String) :
    strLt a b = true ↔ List.Lex (· < ·) a.data b.data := by
  rw [strLt]
  generalize a.data = l1
  generalize b.data = l2
  induction l1 generalizing l2 with
  | nil =>
    cases l2 with
    | nil =>
      simp only [ltChars, Bool.false_eq_true, false_iff]
      exact fun h => by cases h
    | cons y ys =>
      simp only [ltChars, true_iff]
      exact List.Lex.nil
  | cons x xs ih =>
    cases l2 with
    | nil =>
      simp only [ltChars, Bool.false_eq_true, false_iff]
      exact fun h => by cases h
    | cons y ys =>
      simp only [ltChars]
      by_cases hxy : x < y
      · simp only [hxy, if_pos hxy]
        constructor
        · intro _
          exact List.Lex.rel hxy
        · intro _
          rfl
      · by_cases hyx : y < x
        · simp only [if_neg hxy, if_pos hyx]
          constructor
          · intro h
            cases h
          · intro h
            cases h with
            | cons h2 => exact absurd rfl (ne_of_gt hyx)
            | rel h2 => exact absurd h2 hxy
        · have hxyeq : x = y := le_antisymm (not_lt.mp hyx) (not_lt.mp hxy)
          subst hxyeq
          simp only [if_neg hxy, if_neg hyx]
          rw [ih ys]
          constructor
          · intro h
            exact List.Lex.cons h
          · intro h
            cases h with
            | cons h2 => exact h2
            | rel h2 => exact absurd h2 (lt_irrefl x)
/-- Error kinds of `relabel_nifti` on an integer volume: the IndexError an
empty volume triggers when `labels[0]` is read, and the missing-background
`ValueError`. The finite-value and integrality checks of the source are
vacuous in this model because voxel values are integers by construction. -/
inductive RelabelError
  | indexError
  | missingBackground
deriving DecidableEq, Repr

/-- Core data transform of `relabel_nifti` (nifti_visualisation_helper.py):
compute the sorted unique labels, require the smallest (`labels[0]`) to be
exactly 0, then reassign the non-zero labels to consecutive integers
starting at 1 in ascending order of the original label, and cast to int32.
The per-voxel lookup models the masked-assignment loop of the source: the
relabel map has one entry per unique value, so each voxel receives exactly
the new label of its own old label. -/
def relabel_data (data : List Int) : Except RelabelError (List Int) :=
  if sortedUniq intLt data = [] then .error .indexError
  else if (sortedUniq intLt data).headI ≠ 0 then .error .missingBackground
  else
    .ok (data.map (fun v =>
      toInt32 (if v = 0 then 0 else
        (idxIn v ((sortedUniq intLt data).filter (fun x => decide (x ≠ 0))) : Int)
          + 1)))

/-- Strip leading and trailing whitespace from a string, modelling the
pandas `str.strip()` used by `_load_id_to_structure_map`. -/
def stripStr (s : String) : String :=
  ⟨((s.data.dropWhile Char.isWhitespace).reverse.dropWhile
    Char.isWhitespace).reverse⟩

/-- Rows of the lookup table kept by `_load_id_to_structure_map`: rows
whose category is non-empty after stripping surrounding whitespace, with
the category stripped, and finally without id 0 (the source pops key 0
from the dictionary). -/
def keptRows (table : List (Int × String)) : List (Int × String) :=
  ((table.filter (fun r => decide (stripStr r.2 ≠ ""))).map
    (fun r => (r.1, stripStr r.2))).filter (fun r => decide (r.1 ≠ 0))

/-- Collapse an association list to one entry per key, keeping the first
occurrence of each key; `seen` holds the keys already emitted. -/
def dedupKeysAux (seen : List Int) : List (Int × String) → List (Int × String)
  | [] => []
  | r :: rs =>
    if r.1 ∈ seen then dedupKeysAux seen rs
    else r :: dedupKeysAux (r.1 :: seen) rs

/-- Collapse an association list to one entry per key, keeping the first
occurrence of each key. -/
def dedupKeys (rows : List (Int × String)) : List (Int × String) :=
  dedupKeysAux [] rows

/-- The dictionary `dict(zip(ids, structures))` of the source: one entry
per distinct id, the LAST kept row winning, as for a Python dict built
from duplicate keys. Keeping the first occurrence of the reversed row list
realises the last-wins rule; iteration order is irrelevant downstream
(values are collected into a sorted set and lookups are by key). -/
def idToStructure (table : List (Int × String)) : List (Int × String) :=
  dedupKeys (keptRows table).reverse

theorem dedupKeysAux_length_le (seen : List Int)
    (rows : List (Int × String)) :
    (dedupKeysAux seen rows).length ≤ rows.length := by
  induction rows generalizing seen with
  | nil => simp [dedupKeysAux]
  | cons r rs ih =>
    by_cases hs : r.1 ∈ seen
    · simp only [dedupKeysAux, if_pos hs]
      exact le_trans (ih seen) (by simp)
    · simp only [dedupKeysAux, if_neg hs, List.length_cons]
      exact Nat.succ_le_succ (ih (r.1 :: seen))

theorem dedupKeys_length_le (rows : List (Int × String)) :
    (dedupKeys rows).length ≤ rows.length :=
  dedupKeysAux_length_le [] rows

theorem keys_dedupKeysAux (seen : List Int) (rows : List (Int × String))
    (k : Int) :
    (∃ r ∈ dedupKeysAux seen rows, r.1 = k) ↔
      (k ∉ seen ∧ ∃ r ∈ rows, r.1 = k) := by
  induction rows generalizing seen with
  | nil => simp [dedupKeysAux]
  | cons r rs ih =>
    by_cases hs : r.1 ∈ seen
    · rw [show dedupKeysAux seen (r :: rs) = dedupKeysAux seen rs from by
        simp [dedupKeysAux, hs]]
      rw [ih seen]
      constructor
      · rintro ⟨hk, q, hq, hqk⟩
        exact ⟨hk, q, List.mem_cons_of_mem _ hq, hqk⟩
      · rintro ⟨hk, q, hq, hqk⟩
        rcases List.mem_cons.mp hq with rfl | hq2
        · exact absurd (hqk ▸ hs) hk
        · exact ⟨hk, q, hq2, hqk⟩
    · rw [show dedupKeysAux seen (r :: rs) = r :: dedupKeysAux (r.1 :: seen) rs
        from by simp [dedupKeysAux, hs]]
      constructor
      · rintro ⟨q, hq, hqk⟩
        rcases List.mem_cons.mp hq with rfl | hq2
        · exact ⟨hqk ▸ hs, q, List.mem_cons_self _ _, hqk⟩
        · rcases (ih (r.1 :: seen)).mp ⟨q, hq2, hqk⟩ with ⟨hk, p, hp, hpk⟩
          exact ⟨fun hc => hk (List.mem_cons_of_mem _ hc), p,
            List.mem_cons_of_mem _ hp, hpk⟩
      · rintro ⟨hk, q, hq, hqk⟩
        by_cases hkr : k = r.1
        · exact ⟨r, List.mem_cons_self _ _, hkr.symm⟩
        · rcases List.mem_cons.mp hq with rfl | hq2
          · exact absurd hqk.symm hkr
          · have hk2 : k ∉ r.1 :: seen := by
              intro hc
              rcases List.mem_cons.mp hc with rfl | hc2
              · exact hkr rfl
              · exact hk hc2
            rcases (ih (r.1 :: seen)).mpr ⟨hk2, q, hq2, hqk⟩ with ⟨p, hp, hpk⟩
            exact ⟨p, List.mem_cons_of_mem _ hp, hpk⟩

theorem keys_dedupKeys (rows : List (Int × String)) (k : Int) :
    (∃ r ∈ dedupKeys rows, r.1 = k) ↔ (∃ r ∈ rows, r.1 = k) := by
  rw [dedupKeys, keys_dedupKeysAux]
  simp

theorem lookup_eq_none_iff (m : List (Int × String)) (k : Int) :
    m.lookup k = none ↔ ∀ r ∈ m, r.1 ≠ k := by
  induction m with
  | nil => simp [List.lookup]
  | cons r rs ih =>
    by_cases hk : k = r.1
    · simp [List.lookup, hk.symm]
    · have hne : (k == r.1) = false := by
        simpa using hk
      simp only [List.lookup, hne]
      rw [ih]
      constructor
      · intro h q hq
        rcases List.mem_cons.mp hq with rfl | hq2
        · exact fun he => hk he.symm
        · exact h q hq2
      · intro h q hq
        exact h q (List.mem_cons_of_mem _ hq)

theorem lookup_mem (m : List (Int × String)) (k : Int) (s : String)
    (h : m.lookup k = some s) : (k, s) ∈ m := by
  induction m with
  | nil => simp [List.lookup] at h
  | cons r rs ih =>
    by_cases hk : k = r.1
    · have hbeq : (k == r.1) = true := by simpa using hk
      simp only [List.lookup, hbeq] at h
      have : r = (k, s) := by
        cases r with
        | mk a b =>
          simp at h hk
          simp [hk, h.symm]
      rw [← this]
      exact List.mem_cons_self _ _
    · have hbeq : (k == r.1) = false := by simpa using hk
      simp only [List.lookup, hbeq] at h
      exact List.mem_cons_of_mem _ (ih h)

/-- Error kind of `relabel_nifti_to_meta_structure`: the `ValueError`
raised when label ids present in the volume are not mapped by the table,
carrying the (at most 20) listed ids. -/
inductive MetaError
  | unknownLabel (ids : List Int)
deriving DecidableEq, Repr

/-- Model of `relabel_nifti_to_meta_structure` together with
`_build_structure_to_new_id` (nifti_visualisation_helper.py): build the
id-to-structure dictionary, assign each distinct structure its 1-based
rank in alphabetical order, fail with the sorted unmapped foreground ids
(truncated to the first 20) if any non-zero id of the volume is not a
dictionary key, otherwise gather each positive voxel value through the
lookup table and cast to int32. The numpy gather (`lut[data[mask]]` under
the mask `data > 0 and data <= max_id`) is modelled as a per-voxel
dictionary lookup; the two agree for the non-negative label ids the data
model prescribes, which is the regime the theorems below assume. -/
def relabel_to_meta (table : List (Int × String)) (data : List Int) :
    Except MetaError (List Int) :=
  let m := idToStructure table
  let structures := sortedUniq strLt (m.map Prod.snd)
  let presentFg := (sortedUniq intLt data).filter (fun x => decide (x ≠ 0))
  let unknown := presentFg.filter (fun x => (m.lookup x).isNone)
  if unknown ≠ [] then .error (.unknownLabel (unknown.take 20))
  else
    .ok (data.map (fun v =>
      if v ≤ 0 then 0
      else
        match m.lookup v with
        | some s => toInt32 ((idxIn s structures : Int) + 1)
        | none => 0))

/-- C1: Mask containment. For every pair of arrays accepted by
`voronoi_subparcellate` and every flat voxel index at which `to_subdivide`
is zero, the returned array is zero there: no label is ever assigned
outside the mask, regardless of seed proximity. -/
theorem c1_mask_containment (tos seeds : NDArray) (spacing : Option (List ℚ))
    (out : NDArray) (h : voronoi_subparcellate tos seeds spacing = .ok out)
    (i : Nat) (hz : tos.val i = 0) : out.val i = 0 := by
  obtain ⟨hsh, hdim, hsp, hout⟩ := voronoi_ok_inv h
  subst hout
  unfold vorCompute
  rw [val_mk_map]
  by_cases hi : i < seeds.shape.prod
  · simp [hi, hz]
  · simp [hi]

unseal Rat.add Rat.mul Rat.sub in
/-- Witness for C1 at a concrete accepted input. -/
theorem c1_mask_containment_witness :
    ∃ out : NDArray,
      voronoi_subparcellate ⟨[2,2],[1,0,1,0]⟩ ⟨[2,2],[3,0,0,4]⟩ none =
        .ok out ∧ out.val 1 = 0 := by
  refine ⟨⟨[2,2],[3,0,3,0]⟩, by decide, ?_⟩
  exact c1_mask_containment ⟨[2,2],[1,0,1,0]⟩ ⟨[2,2],[3,0,0,4]⟩ none
    ⟨[2,2],[3,0,3,0]⟩ (by decide) 1 (by decide)

/-- C2: Seed fidelity. For every accepted input with a valid spacing (the
default unit spacing, or explicit all-positive entries as the data model
prescribes), every voxel that is both a seed and inside the mask keeps its
own seed label: it is its own nearest seed at distance zero. -/
theorem c2_seed_fidelity (tos seeds : NDArray) (spacing : Option (List ℚ))
    (out : NDArray) (h : voronoi_subparcellate tos seeds spacing = .ok out)
    (hpos : ∀ sp, spacing = some sp → ∀ q ∈ sp, 0 < q)
    (i : Nat) (hi : i < seeds.shape.prod)
    (hs : seeds.val i ≠ 0) (ht : tos.val i ≠ 0) : out.val i = seeds.val i := by
  obtain ⟨hsh, hdim, hsplen, hout⟩ := voronoi_ok_inv h
  have heff : ∀ q ∈ effSpacing tos.shape.length spacing, 0 < q := by
    cases spacing with
    | none =>
      intro q hq
      have hq1 : q = 1 := by
        have h2 := hq
        simp [effSpacing, List.mem_replicate] at h2
        exact h2.2
      rw [hq1]
      exact one_pos
    | some sp =>
      intro q hq
      exact hpos sp rfl q hq
  subst hout
  unfold vorCompute
  rw [val_mk_map, if_pos hi]
  rw [if_neg ht]
  have hmem : i ∈ seedIndices seeds := by
    rw [seedIndices, List.mem_filter]
    exact ⟨List.mem_range.mpr hi, by simpa using hs⟩
  have hargmin :
      argminBy
        (fun j => sqdist (effSpacing tos.shape.length spacing)
          (unflatten seeds.shape i) (unflatten seeds.shape j))
        (seedIndices seeds) = some i := by
    apply argminBy_eq_of_unique_min
    · exact hmem
    · intro j hj hne
      have hj2 : j < seeds.shape.prod :=
        List.mem_range.mp (List.mem_filter.mp hj).1
      have hpq : unflatten seeds.shape i ≠ unflatten seeds.shape j := by
        intro he
        exact hne (unflatten_injOn seeds.shape hj2 hi he.symm)
      have hlen1 : (effSpacing tos.shape.length spacing).length =
          (unflatten seeds.shape i).length := by
        rw [length_unflatten, hsplen, hsh]
      have hlen2 : (effSpacing tos.shape.length spacing).length =
          (unflatten seeds.shape j).length := by
        rw [length_unflatten, hsplen, hsh]
      rw [sqdist_self]
      exact sqdist_pos _ _ _ heff hlen1 hlen2 hpq
  rw [hargmin]

unseal Rat.add Rat.mul Rat.sub in
/-- Witness for C2 at a concrete accepted input: the seed voxel at flat
index 0 keeps its label 7. -/
theorem c2_seed_fidelity_witness :
    ∃ out : NDArray,
      voronoi_subparcellate ⟨[2,2],[1,1,1,1]⟩ ⟨[2,2],[7,0,0,9]⟩ none =
        .ok out ∧ out.val 0 = (⟨[2,2],[7,0,0,9]⟩ : NDArray).val 0 := by
  refine ⟨⟨[2,2],[7,7,7,9]⟩, by decide, ?_⟩
  exact c2_seed_fidelity ⟨[2,2],[1,1,1,1]⟩ ⟨[2,2],[7,0,0,9]⟩ none
    ⟨[2,2],[7,7,7,9]⟩ (by decide) (fun sp h => by cases h) 0 (by decide)
    (by decide) (by decide)

/-- C9: Output label containment. Every voxel value of an array returned
by `voronoi_subparcellate` is either 0 or a value occurring somewhere in
`seed_labels`: the output gathers values out of the seed volume, so no
label id absent from it can appear. -/
theorem c9_output_label_containment (tos seeds : NDArray)
    (spacing : Option (List ℚ)) (out : NDArray)
    (h : voronoi_subparcellate tos seeds spacing = .ok out) (i : Nat) :
    out.val i = 0 ∨ out.val i ∈ seeds.data := by
  obtain ⟨hsh, hdim, hsp, hout⟩ := voronoi_ok_inv h
  subst hout
  unfold vorCompute
  rw [val_mk_map]
  by_cases hi : i < seeds.shape.prod
  · rw [if_pos hi]
    by_cases hz : tos.val i = 0
    · left
      simp [hz]
    · simp only [if_neg hz]
      cases hargmin : argminBy
          (fun j => sqdist (effSpacing tos.shape.length spacing)
            (unflatten seeds.shape i) (unflatten seeds.shape j))
          (seedIndices seeds) with
      | none => left; rfl
      | some j =>
        by_cases hjz : seeds.val j = 0
        · left
          simp [hjz]
        · right
          show seeds.val j ∈ seeds.data
          have hjlen : j < seeds.data.length := by
            by_contra hge
            rw [NDArray.val, List.getD_eq_default] at hjz
            · exact hjz rfl
            · omega
          have hval : seeds.val j = seeds.data.get ⟨j, hjlen⟩ := by
            rw [NDArray.val, List.getD_eq_getElem _ _ hjlen]
            rfl
          rw [hval]
          exact List.get_mem _ _ hjlen
  · left
    simp [hi]

unseal Rat.add Rat.mul Rat.sub in
/-- Witness for C9 at a concrete accepted input. -/
theorem c9_output_label_containment_witness :
    ∃ out : NDArray,
      voronoi_subparcellate ⟨[1,2],[1,1]⟩ ⟨[1,2],[0,5]⟩ none = .ok out ∧
        (out.val 0 = 0 ∨ out.val 0 ∈ [(0:Int),5]) := by
  refine ⟨⟨[1,2],[5,5]⟩, by decide, ?_⟩
  exact c9_output_label_containment ⟨[1,2],[1,1]⟩ ⟨[1,2],[0,5]⟩ none
    ⟨[1,2],[5,5]⟩ (by decide) 0

unseal Rat.add Rat.mul Rat.sub in
/-- C3: the source never checks that `seed_labels` contains a non-zero
value, contradicting its own docstring. On an all-zero seed volume the
call returns an all-zero array instead of raising: the distance-transform
gather reads only zeros out of the seed volume. -/
theorem c3_empty_seed_set_returns_zero :
    voronoi_subparcellate ⟨[2,2],[1,1,1,1]⟩ ⟨[2,2],[0,0,0,0]⟩ none =
      .ok ⟨[2,2],[0,0,0,0]⟩ := by decide

unseal Rat.add Rat.mul Rat.sub in
/-- Counterexample to C8 as stated: a spacing with a non-positive entry
(here 0 and -1) is not rejected; the call succeeds and returns a result,
because the source never validates spacing positivity and the distance
transform accepts any sampling values. -/
theorem c8_counterexample_nonpositive_spacing_accepted :
    voronoi_subparcellate ⟨[2,2],[1,1,1,1]⟩ ⟨[2,2],[1,0,0,2]⟩
      (some [0,-1]) = .ok ⟨[2,2],[1,2,1,2]⟩ := by decide

/-- C8 amended: only the length of an explicit spacing is checked (by the
distance transform, which rejects a sampling sequence whose length differs
from the array rank); entries are never validated for positivity. For
every input passing the earlier checks, a wrong-length spacing fails with
the spacing-length error. -/
theorem c8_amended_spacing_length_rejected (tos seeds : NDArray)
    (sp : List ℚ) (hsh : tos.shape = seeds.shape)
    (hdim : 2 ≤ tos.shape.length)
    (hmask : ¬ (List.range tos.shape.prod).all
      (fun i => decide (tos.val i = 0)) = true)
    (hlen : sp.length ≠ tos.shape.length) :
    voronoi_subparcellate tos seeds (some sp) = .error .spacingLength := by
  unfold voronoi_subparcellate
  rw [if_neg (not_not.mpr hsh), if_neg (not_lt.mpr hdim), if_neg hmask,
    if_pos]
  simpa [effSpacing] using hlen

/-- Witness for the amended C8 at a concrete input: a 2-dimensional array
with a 1-entry spacing is rejected. -/
theorem c8_amended_spacing_length_rejected_witness :
    voronoi_subparcellate ⟨[2,2],[1,0,0,0]⟩ ⟨[2,2],[5,0,0,0]⟩ (some [1]) =
      .error .spacingLength :=
  c8_amended_spacing_length_rejected ⟨[2,2],[1,0,0,0]⟩ ⟨[2,2],[5,0,0,0]⟩
    [1] (by decide) (by decide) (by decide) (by decide)

/-- C4: Overlap detection. For every pair of same-shape arrays sharing at
least one voxel that is non-zero in both, `combine_hemispheres` raises the
overlap error, and the voxel count it names equals the exact cardinality
of the intersection of the two non-zero supports. -/
theorem c4_overlap_detection (left right : NDArray)
    (hsh : left.shape = right.shape)
    (hov : ∃ i < left.shape.prod, left.val i ≠ 0 ∧ right.val i ≠ 0) :
    combine_hemispheres left right =
      .error (.overlap (((Finset.range left.shape.prod).filter
        (fun i => left.val i ≠ 0 ∧ right.val i ≠ 0)).card)) := by
  have hcnt : overlapCount left right =
      ((Finset.range left.shape.prod).filter
        (fun i => left.val i ≠ 0 ∧ right.val i ≠ 0)).card := by
    rw [overlapCount]
    exact countP_range_eq_card_filter left.shape.prod
      (fun i => left.val i ≠ 0 ∧ right.val i ≠ 0)
  have hpos : overlapCount left right ≠ 0 := by
    rw [hcnt]
    rcases hov with ⟨i, hilt, hl, hr⟩
    have hmem : i ∈ (Finset.range left.shape.prod).filter
        (fun i => left.val i ≠ 0 ∧ right.val i ≠ 0) :=
      Finset.mem_filter.mpr ⟨Finset.mem_range.mpr hilt, hl, hr⟩
    have := Finset.card_pos.mpr ⟨i, hmem⟩
    omega
  unfold combine_hemispheres
  rw [if_neg (not_not.mpr hsh), if_pos hpos, hcnt]

/-- Witness for C4 at a concrete overlapping input: one overlapping voxel
is reported. -/
theorem c4_overlap_detection_witness :
    combine_hemispheres ⟨[2,2],[1,0,0,0]⟩ ⟨[2,2],[2,0,0,2]⟩ =
      .error (.overlap 1) := by
  have h := c4_overlap_detection ⟨[2,2],[1,0,0,0]⟩ ⟨[2,2],[2,0,0,2]⟩
    (by decide) ⟨0, by decide, by decide, by decide⟩
  rw [h]
  decide

/-- C5: Disjoint union correctness. For every pair of same-shape arrays
whose non-zero supports are disjoint, `combine_hemispheres` returns the
voxel-wise sum: by definition of the combination each voxel is the left
value where left is non-zero, else the right value, else 0, and under
disjointness that equals left plus right. -/
theorem c5_disjoint_union (left right : NDArray)
    (hsh : left.shape = right.shape)
    (hdisj : ∀ i < left.shape.prod, left.val i = 0 ∨ right.val i = 0) :
    combine_hemispheres left right =
      .ok ⟨left.shape, (List.range left.shape.prod).map
        (fun i => left.val i + right.val i)⟩ := by
  have hcnt : overlapCount left right = 0 := by
    rw [overlapCount, List.countP_eq_zero]
    intro i hi
    rcases hdisj i (List.mem_range.mp hi) with h0 | h0 <;> simp [h0]
  unfold combine_hemispheres
  rw [if_neg (not_not.mpr hsh), if_neg (by simp [hcnt])]
  congr 1
  rw [NDArray.mk.injEq]
  refine ⟨rfl, ?_⟩
  apply List.map_congr_left
  intro i hi
  rcases hdisj i (List.mem_range.mp hi) with h0 | h0
  · simp [h0]
  · by_cases h1 : left.val i = 0
    · simp [h0, h1]
    · simp [h0, h1]

/-- Witness for C5 at a concrete disjoint input. -/
theorem c5_disjoint_union_witness :
    combine_hemispheres ⟨[2,2],[1,0,0,0]⟩ ⟨[2,2],[0,0,0,2]⟩ =
      .ok ⟨[2,2],[1,0,0,2]⟩ := by
  have h := c5_disjoint_union ⟨[2,2],[1,0,0,0]⟩ ⟨[2,2],[0,0,0,2]⟩
    (by decide) (by decide)
  rw [h]
  decide

/-- Number of distinct non-zero values of `data` that are numerically
smaller than `v`: the 0-based ascending rank of a non-zero value among the
distinct non-zero values. -/
def distinctBelow (data : List Int) (v : Int) : Nat :=
  (data.toFinset.filter (fun w => w ≠ 0 ∧ w < v)).card

theorem fg_toFinset (data : List Int) :
    ((sortedUniq intLt data).filter (fun x => decide (x ≠ 0))).toFinset =
      data.toFinset.filter (fun x => x ≠ 0) := by
  rw [List.toFinset_filter, toFinset_sortedUniq]
  apply Finset.filter_congr
  intro x _
  simp

theorem idxIn_fg_eq_distinctBelow (data : List Int) (v : Int)
    (hv : v ∈ data) (hvne : v ≠ 0) :
    idxIn v ((sortedUniq intLt data).filter (fun x => decide (x ≠ 0))) =
      distinctBelow data v := by
  set fg := (sortedUniq intLt data).filter (fun x => decide (x ≠ 0)) with hfg
  have hpw : fg.Pairwise (fun a b => intLt a b = true) :=
    (pairwise_sortedUniq intLt_strictTotal data).filter _
  have hnd : fg.Nodup := hpw.imp (fun h => intLt_strictTotal.ne_of_lt h)
  have hvfg : v ∈ fg := by
    rw [hfg, List.mem_filter]
    exact ⟨(mem_sortedUniq intLt data v).mpr hv, by simpa using hvne⟩
  rw [idxIn_eq_countP intLt_strictTotal fg v hpw hvfg,
    countP_eq_card_filter_toFinset fg _ hnd]
  rw [distinctBelow]
  have h1 : (fg.toFinset.filter (fun w => intLt w v = true)).card =
      ((data.toFinset.filter (fun x => x ≠ 0)).filter
        (fun w => w < v)).card := by
    rw [hfg, fg_toFinset]
    congr 1
    apply Finset.filter_congr
    intro x _
    simp [intLt]
  rw [h1, Finset.filter_filter]

theorem fg_length_eq (data : List Int) :
    ((sortedUniq intLt data).filter (fun x => decide (x ≠ 0))).length =
      (data.toFinset.filter (fun x => x ≠ 0)).card := by
  set fg := (sortedUniq intLt data).filter (fun x => decide (x ≠ 0)) with hfg
  have hpw : fg.Pairwise (fun a b => intLt a b = true) :=
    (pairwise_sortedUniq intLt_strictTotal data).filter _
  have hnd : fg.Nodup := hpw.imp (fun h => intLt_strictTotal.ne_of_lt h)
  rw [← List.toFinset_card_of_nodup hnd, hfg, fg_toFinset]

/-- C6: Ordinal compaction correctness. For every integer label volume
containing the background value 0 (and, per the data model, no negative
value) whose size fits int32, `relabel_nifti` succeeds and maps each of
the K distinct non-zero labels to its 1-based ascending rank (so the K
labels receive 1..K in ascending numeric order of the original id), maps
0 to 0, and every output value is non-negative and at most K (hence
representable in int32). -/
theorem c6_ordinal_compaction (data : List Int)
    (hnn : ∀ x ∈ data, 0 ≤ x) (h0 : 0 ∈ data)
    (hsz : data.length < 2147483648) :
    relabel_data data = .ok (data.map (fun v =>
      if v = 0 then 0 else (distinctBelow data v : Int) + 1)) ∧
    ∀ w ∈ data.map (fun v =>
      if v = 0 then (0:Int) else (distinctBelow data v : Int) + 1),
      0 ≤ w ∧ w ≤ ((data.toFinset.filter (fun x => x ≠ 0)).card : Int) := by
  have h0L : (0:Int) ∈ sortedUniq intLt data :=
    (mem_sortedUniq intLt data 0).mpr h0
  have hLne : sortedUniq intLt data ≠ [] := List.ne_nil_of_mem h0L
  obtain ⟨l0, t, hLt⟩ : ∃ l0 t, sortedUniq intLt data = l0 :: t := by
    cases hL : sortedUniq intLt data with
    | nil => exact absurd hL hLne
    | cons a b => exact ⟨a, b, rfl⟩
  obtain ⟨hmem0, hmin⟩ := sortedUniq_head_min intLt_strictTotal data l0 t hLt
  have hl0 : l0 = 0 := by
    by_cases h2 : (0:Int) = l0
    · exact h2.symm
    · have h3 := hmin 0 h0 (fun he => h2 he)
      have h4 := hnn l0 hmem0
      simp only [intLt, decide_eq_true_eq] at h3
      omega
  have hfglen : ((sortedUniq intLt data).filter
      (fun x => decide (x ≠ 0))).length ≤ data.length :=
    le_trans (List.length_filter_le _ _) (length_sortedUniq_le intLt data)
  have hkey : ∀ v ∈ data,
      toInt32 (if v = 0 then 0 else
        (idxIn v ((sortedUniq intLt data).filter (fun x => decide (x ≠ 0)))
          : Int) + 1) =
      if v = 0 then 0 else (distinctBelow data v : Int) + 1 := by
    intro v hv
    by_cases hvz : v = 0
    · simp only [hvz, if_pos rfl]
      exact toInt32_eq_self (by norm_num) (by norm_num)
    · simp only [if_neg hvz]
      have hvfg : v ∈ (sortedUniq intLt data).filter
          (fun x => decide (x ≠ 0)) := by
        rw [List.mem_filter]
        exact ⟨(mem_sortedUniq intLt data v).mpr hv, by simpa using hvz⟩
      have hlt := idxIn_lt_length v _ hvfg
      have hb : (idxIn v ((sortedUniq intLt data).filter
          (fun x => decide (x ≠ 0))) : Int) + 1 < 2147483648 := by
        have : idxIn v ((sortedUniq intLt data).filter
            (fun x => decide (x ≠ 0))) < data.length := by omega
        omega
      rw [toInt32_eq_self (by positivity) hb,
        idxIn_fg_eq_distinctBelow data v hv hvz]
  constructor
  · rw [relabel_data, if_neg (by rw [hLt]; simp),
      if_neg (by rw [hLt, hl0]; simp)]
    congr 1
    apply List.map_congr_left
    exact hkey
  · intro w hw
    rcases List.mem_map.mp hw with ⟨v, hv, hveq⟩
    by_cases hvz : v = 0
    · rw [← hveq, if_pos hvz]
      exact ⟨le_refl 0, by exact_mod_cast Nat.zero_le _⟩
    · rw [← hveq, if_neg hvz]
      have hvfg : v ∈ (sortedUniq intLt data).filter
          (fun x => decide (x ≠ 0)) := by
        rw [List.mem_filter]
        exact ⟨(mem_sortedUniq intLt data v).mpr hv, by simpa using hvz⟩
      have hlt := idxIn_lt_length v _ hvfg
      rw [← idxIn_fg_eq_distinctBelow data v hv hvz]
      have hK := fg_length_eq data
      constructor
      · positivity
      · rw [← hK]
        omega

/-- Witness for C6 at the concrete input of the claim: the distinct
non-zero values 5, 1000, 1001 are mapped to 1, 2, 3. -/
theorem c6_ordinal_compaction_witness :
    (∀ x ∈ ([0,5,1000,1001] : List Int), 0 ≤ x) ∧
      relabel_data [0,5,1000,1001] = .ok [0,1,2,3] := by
  refine ⟨by decide, ?_⟩
  rw [(c6_ordinal_compaction [0,5,1000,1001] (by decide) (by decide)
    (by norm_num)).1]
  decide

/-- C10: Negative-label rejection. `relabel_nifti` accepts a volume only
if the smallest value present is exactly 0 (so 0 occurs and nothing is
negative), and on every input containing a negative value it raises the
missing-background error even when 0 does occur, because the background
check inspects only the minimum of the sorted unique values. -/
theorem c10_negative_label_rejection (data : List Int) :
    ((∃ out, relabel_data data = .ok out) →
      (0 ∈ data ∧ ∀ y ∈ data, 0 ≤ y)) ∧
    ((∃ x ∈ data, x < 0) →
      relabel_data data = .error .missingBackground) := by
  constructor
  · rintro ⟨out, hout⟩
    rw [relabel_data] at hout
    split_ifs at hout with h1 h2
    have hLne : sortedUniq intLt data ≠ [] := h1
    obtain ⟨l0, t, hLt⟩ : ∃ l0 t, sortedUniq intLt data = l0 :: t := by
      cases hL : sortedUniq intLt data with
      | nil => exact absurd hL hLne
      | cons a b => exact ⟨a, b, rfl⟩
    have hl0 : l0 = 0 := by
      have := not_not.mp h2
      rw [hLt] at this
      simpa using this
    obtain ⟨hmem0, hmin⟩ := sortedUniq_head_min intLt_strictTotal data l0 t hLt
    subst hl0
    refine ⟨hmem0, fun y hy => ?_⟩
    by_cases hy0 : y = 0
    · omega
    · have h3 := hmin y hy hy0
      simp only [intLt, decide_eq_true_eq] at h3
      omega
  · rintro ⟨x, hx, hxneg⟩
    have hxL : x ∈ sortedUniq intLt data :=
      (mem_sortedUniq intLt data x).mpr hx
    have hLne : sortedUniq intLt data ≠ [] := List.ne_nil_of_mem hxL
    obtain ⟨l0, t, hLt⟩ : ∃ l0 t, sortedUniq intLt data = l0 :: t := by
      cases hL : sortedUniq intLt data with
      | nil => exact absurd hL hLne
      | cons a b => exact ⟨a, b, rfl⟩
    obtain ⟨hmem0, hmin⟩ := sortedUniq_head_min intLt_strictTotal data l0 t hLt
    have hl0neg : l0 < 0 := by
      by_cases he : x = l0
      · omega
      · have h3 := hmin x hx he
        simp only [intLt, decide_eq_true_eq] at h3
        omega
    rw [relabel_data, if_neg (by rw [hLt]; simp), if_pos]
    rw [hLt]
    simp only [List.headI]
    omega

/-- Witness for C10 at a concrete input containing both a negative value
and 0: the missing-background error is raised. -/
theorem c10_negative_label_rejection_witness :
    relabel_data [-1, 0] = .error .missingBackground :=
  (c10_negative_label_rejection [-1, 0]).2 ⟨-1, by decide, by decide⟩

/-- Category assigned to id `v` by the lookup table (empty string when
unmapped). -/
def catOf (table : List (Int × String)) (v : Int) : String :=
  ((idToStructure table).lookup v).getD ""

/-- The distinct meta categories of the lookup table. -/
def metaCategories (table : List (Int × String)) : Finset String :=
  ((idToStructure table).map Prod.snd).toFinset

theorem mem_keptRows_key (table : List (Int × String)) (v : Int) :
    (∃ q ∈ keptRows table, q.1 = v) ↔
      (v ≠ 0 ∧ ∃ r ∈ table, r.1 = v ∧ stripStr r.2 ≠ "") := by
  simp only [keptRows, List.mem_filter, List.mem_map, decide_eq_true_eq]
  constructor
  · rintro ⟨q, ⟨⟨r, ⟨hrmem, hrs⟩, hq⟩, hq0⟩, hqv⟩
    subst hq
    simp only at hq0 hqv
    subst hqv
    exact ⟨hq0, r, hrmem, rfl, hrs⟩
  · rintro ⟨hv0, r, hrmem, hrv, hrs⟩
    refine ⟨(r.1, stripStr r.2), ⟨⟨r, ⟨hrmem, hrs⟩, rfl⟩, ?_⟩, hrv⟩
    simpa [hrv] using hv0

theorem lookup_idToStructure_none_iff (table : List (Int × String))
    (v : Int) (hv : v ≠ 0) :
    (idToStructure table).lookup v = none ↔
      ¬ ∃ r ∈ table, r.1 = v ∧ stripStr r.2 ≠ "" := by
  rw [lookup_eq_none_iff]
  constructor
  · intro h hent
    have hkey : ∃ q ∈ keptRows table, q.1 = v :=
      (mem_keptRows_key table v).mpr ⟨hv, hent⟩
    have hkey2 : ∃ q ∈ (keptRows table).reverse, q.1 = v := by
      rcases hkey with ⟨q, hq, hqv⟩
      exact ⟨q, List.mem_reverse.mpr hq, hqv⟩
    rcases (keys_dedupKeys (keptRows table).reverse v).mpr hkey2
      with ⟨q, hq, hqv⟩
    exact h q hq hqv
  · intro h q hq hqv
    have hkey : ∃ p ∈ (keptRows table).reverse, p.1 = v :=
      (keys_dedupKeys (keptRows table).reverse v).mp ⟨q, hq, hqv⟩
    have hkey2 : ∃ p ∈ keptRows table, p.1 = v := by
      rcases hkey with ⟨p, hp, hpv⟩
      exact ⟨p, List.mem_reverse.mp hp, hpv⟩
    exact h ((mem_keptRows_key table v).mp hkey2).2

/-- C7: Structure-collapse completeness. Under the data-model constraints
(non-negative ids in the table and the volume, table size within int32),
`relabel_nifti_to_meta_structure` (1) raises the unknown-label error
whenever some non-zero id of the volume has no table row with that id and
a non-empty stripped category, and the ids it lists are at most the first
20 offending ids, in ascending order, each genuinely offending; and (2)
when every non-zero id is mapped, it succeeds and assigns each voxel the
1-based alphabetical (code-point) rank of the category of its id among
the distinct categories, with 0 kept at 0. With table
{1 mapsto A, 2 mapsto A, 3 mapsto B} and a volume over {1,2,3} this
yields exactly the two positive ordinals 1 (for A) and 2 (for B). -/
theorem c7_structure_collapse (table : List (Int × String)) (data : List Int)
    (_hid : ∀ r ∈ table, 0 ≤ r.1) (hdata : ∀ v ∈ data, 0 ≤ v)
    (hsz : table.length < 2147483648) :
    ((∃ v ∈ data, v ≠ 0 ∧ ¬ ∃ r ∈ table, r.1 = v ∧ stripStr r.2 ≠ "") →
      ∃ L, relabel_to_meta table data = .error (.unknownLabel L) ∧
        L ≠ [] ∧ L.length ≤ 20 ∧ L.Pairwise (· < ·) ∧
        ∀ x ∈ L, x ∈ data ∧ x ≠ 0 ∧
          ¬ ∃ r ∈ table, r.1 = x ∧ stripStr r.2 ≠ "") ∧
    ((∀ v ∈ data, v ≠ 0 → ∃ r ∈ table, r.1 = v ∧ stripStr r.2 ≠ "") →
      relabel_to_meta table data = .ok (data.map (fun v =>
        if v = 0 then 0 else
          (((metaCategories table).filter
            (fun s => strLt s (catOf table v) = true)).card : Int) + 1))) := by
  constructor
  · rintro ⟨v, hv, hvne, hnoent⟩
    have hvpf : v ∈ (sortedUniq intLt data).filter
        (fun x => decide (x ≠ 0)) := by
      rw [List.mem_filter]
      exact ⟨(mem_sortedUniq intLt data v).mpr hv, by simpa using hvne⟩
    have hvun : v ∈ ((sortedUniq intLt data).filter
        (fun x => decide (x ≠ 0))).filter
        (fun x => ((idToStructure table).lookup x).isNone) := by
      rw [List.mem_filter]
      refine ⟨hvpf, ?_⟩
      rw [Option.isNone_iff_eq_none]
      exact (lookup_idToStructure_none_iff table v hvne).mpr hnoent
    have hune : ((sortedUniq intLt data).filter
        (fun x => decide (x ≠ 0))).filter
        (fun x => ((idToStructure table).lookup x).isNone) ≠ [] :=
      List.ne_nil_of_mem hvun
    refine ⟨(((sortedUniq intLt data).filter
        (fun x => decide (x ≠ 0))).filter
        (fun x => ((idToStructure table).lookup x).isNone)).take 20,
      ?_, ?_, ?_, ?_, ?_⟩
    · simp only [relabel_to_meta]
      rw [if_pos hune]
    · cases hu : ((sortedUniq intLt data).filter
          (fun x => decide (x ≠ 0))).filter
          (fun x => ((idToStructure table).lookup x).isNone) with
      | nil => exact absurd hu hune
      | cons a b => simp [hu]
    · exact List.length_take_le 20 _
    · have hpw : (((sortedUniq intLt data).filter
          (fun x => decide (x ≠ 0))).filter
          (fun x => ((idToStructure table).lookup x).isNone)).Pairwise
          (fun a b => intLt a b = true) :=
        ((pairwise_sortedUniq intLt_strictTotal data).filter _).filter _
      have hpw2 := hpw.sublist (List.take_sublist 20 _)
      exact hpw2.imp (fun h => by
        simpa [intLt] using h)
    · intro x hxL
      have hxun := List.take_subset 20 _ hxL
      rw [List.mem_filter] at hxun
      rcases hxun with ⟨hxpf, hxnone⟩
      rw [List.mem_filter] at hxpf
      rcases hxpf with ⟨hxsu, hxne⟩
      have hxdata : x ∈ data := (mem_sortedUniq intLt data x).mp hxsu
      have hxne2 : x ≠ 0 := by simpa using hxne
      refine ⟨hxdata, hxne2, ?_⟩
      rw [← lookup_idToStructure_none_iff table x hxne2,
        ← Option.isNone_iff_eq_none]
      exact hxnone
  · intro hall
    have hnone : ((sortedUniq intLt data).filter
        (fun x => decide (x ≠ 0))).filter
        (fun x => ((idToStructure table).lookup x).isNone) = [] := by
      by_contra hne
      rcases List.exists_mem_of_ne_nil _ hne with ⟨x, hx⟩
      rw [List.mem_filter] at hx
      rcases hx with ⟨hxpf, hxnone⟩
      rw [List.mem_filter] at hxpf
      rcases hxpf with ⟨hxsu, hxne⟩
      have hxdata : x ∈ data := (mem_sortedUniq intLt data x).mp hxsu
      have hxne2 : x ≠ 0 := by simpa using hxne
      have hent := hall x hxdata hxne2
      have := (lookup_idToStructure_none_iff table x hxne2).mp
        (Option.isNone_iff_eq_none.mp hxnone)
      exact this hent
    simp only [relabel_to_meta]
    rw [if_neg (not_not.mpr hnone)]
    congr 1
    apply List.map_congr_left
    intro v hv
    by_cases hvz : v = 0
    · simp [hvz]
    · have hvpos : 0 < v := lt_of_le_of_ne (hdata v hv) (Ne.symm hvz)
      rw [if_neg (by omega), if_neg hvz]
      have hent := hall v hv hvz
      cases hlk : (idToStructure table).lookup v with
      | none =>
        exact absurd hent
          ((lookup_idToStructure_none_iff table v hvz).mp hlk)
      | some s =>
        have hcat : catOf table v = s := by
          rw [catOf, hlk]
          rfl
        have hsmem : s ∈ sortedUniq strLt
            ((idToStructure table).map Prod.snd) := by
          rw [mem_sortedUniq]
          exact List.mem_map.mpr ⟨(v, s), lookup_mem _ v s hlk, rfl⟩
        have hpw := pairwise_sortedUniq strLt_strictTotal
          ((idToStructure table).map Prod.snd)
        have hnd : (sortedUniq strLt
            ((idToStructure table).map Prod.snd)).Nodup :=
          nodup_sortedUniq strLt_strictTotal _
        have hrank : idxIn s (sortedUniq strLt
            ((idToStructure table).map Prod.snd)) =
            ((metaCategories table).filter
              (fun s2 => strLt s2 (catOf table v) = true)).card := by
          rw [idxIn_eq_countP strLt_strictTotal _ s hpw hsmem,
            countP_eq_card_filter_toFinset _ _ hnd, toFinset_sortedUniq]
          rw [metaCategories, hcat]
        have hblen : idxIn s (sortedUniq strLt
            ((idToStructure table).map Prod.snd)) < table.length := by
          have h1 := idxIn_lt_length s _ hsmem
          have h2 := length_sortedUniq_le strLt
            ((idToStructure table).map Prod.snd)
          have h3 : ((idToStructure table).map Prod.snd).length =
              (idToStructure table).length := List.length_map _ _
          have h4 : (idToStructure table).length ≤
              (keptRows table).reverse.length := by
            rw [idToStructure]
            exact dedupKeys_length_le _
          have h5 : (keptRows table).reverse.length ≤ table.length := by
            rw [List.length_reverse, keptRows]
            calc (((table.filter (fun r => decide (stripStr r.2 ≠ ""))).map
                (fun r => (r.1, stripStr r.2))).filter
                (fun r => decide (r.1 ≠ 0))).length
                ≤ ((table.filter (fun r => decide (stripStr r.2 ≠ ""))).map
                  (fun r => (r.1, stripStr r.2))).length :=
                  List.length_filter_le _ _
              _ = (table.filter (fun r => decide (stripStr r.2 ≠ ""))).length :=
                  List.length_map _ _
              _ ≤ table.length := List.length_filter_le _ _
          omega
        have hfin : toInt32 ((idxIn s (sortedUniq strLt
            ((idToStructure table).map Prod.snd)) : Int) + 1) =
            (((metaCategories table).filter
              (fun s2 => strLt s2 (catOf table v) = true)).card : Int) + 1 := by
          rw [toInt32_eq_self (by positivity) (by omega), hrank]
        exact hfin

/-- Witness for C7 at the concrete table and volume of the claim: the
categories A and B receive ordinals 1 and 2. -/
theorem c7_structure_collapse_witness :
    relabel_to_meta [(1,"A"),(2,"A"),(3,"B")] [0,1,2,3] = .ok [0,1,1,2] := by
  rw [(c7_structure_collapse [(1,"A"),(2,"A"),(3,"B")] [0,1,2,3]
    (by decide) (by decide) (by norm_num)).2 (by decide)]
  decide
